import Mathlib

/-!
Verification of the Brotli encoder core (`src/enc/encode.cc`) against its
natural-language specification.

The development shallowly embeds the bit-level serialization routines of the
encoder.  The bit sink (`WriteBits` of `write_bits.h`) is modelled as an
append-only list of booleans, least-significant bit first, which is the
documented semantics of the C routine.  Machine integers are modelled as `Nat`
(all the quantities involved are non-negative sizes, counts and codes) or as
`Int` where the C code manipulates possibly-negative `int` values (distances
combined with negative value offsets).

Each serialization function from the source is translated into an executable
Lean definition with the same name (C++ trailing-underscore field names are
kept).  Specification-side restatements, used for refinement comparisons, are
suffixed `Claim` or `Spec`.
-/

namespace Brotli

/-- Model of `WriteBits(n_bits, bits, ...)` payload: the low `n` bits of `v`,
least-significant first, as a list of booleans appended to the bit stream. -/
def writeBits : Nat → Nat → List Bool
  | 0, _ => []
  | n + 1, v => decide (v % 2 = 1) :: writeBits n (v / 2)

/-- The mutable bit sink of the C code: a bit cursor `storage_ix` plus the
buffer contents (modelled as the list of bits written so far). -/
structure BitSink where
  storage_ix : Nat
  storage : List Bool
  deriving Repr, DecidableEq

/-- Stateful `WriteBits` from `write_bits.h`: appends `nbits` bits of `val`
and advances the cursor. -/
def WriteBits (nbits val : Nat) (s : BitSink) : BitSink :=
  ⟨s.storage_ix + nbits, s.storage ++ writeBits nbits val⟩

/-- `EntropyCode<kSize>` from `entropy_encode.h`: `count_` distinct symbols,
the distinct symbol list (used when `count_ ≤ 4`), and per-symbol bit depths
and canonical codewords. -/
structure EntropyCode where
  count_ : Nat
  symbols_ : List Nat
  depth_ : Nat → Nat
  bits_ : Nat → Nat

/-- `EntropyEncode` (encode.cc lines 94-101): emit nothing for codes with at
most one distinct symbol, otherwise emit the codeword of `val`. -/
def EntropyEncode (val : Nat) (code : EntropyCode) (s : BitSink) : BitSink :=
  if code.count_ ≤ 1 then s
  else WriteBits (code.depth_ val) (code.bits_ val) s

/-- `BrotliCompressBuffer` (encode.cc lines 837-874), restricted to the
`input_size == 0` branch which is entirely local to the function: it writes
bytes `0x01, 0x00` at offsets 0 and 1 of the caller's buffer, reports size 2
and returns 1.  The non-empty branch drives the full compressor pipeline
(hasher, block splitter, entropy-code builder — external collaborators whose
sources are not part of this tree) and is not modelled; it is represented by
`none`. -/
def BrotliCompressBuffer (input : List Nat) (encoded_buffer : List Nat) :
    Option (List Nat × Nat × Nat) :=
  if input.length = 0 then
    some ((encoded_buffer.set 0 1).set 1 0, 2, 1)
  else
    none

/-- The nibble loop of `EncodeMetaBlockLength` (the `while (num_bits > 0)` at
encode.cc lines 84-88).  `num_bits` is a C `int` that may go negative inside
the loop, so it is modelled as `Int`.  `fuel` is an upper bound on the number
of iterations, making the recursion structural; callers pass `num_bits.toNat`,
which always suffices because every iteration consumes 4 of `num_bits`.
Returns the emitted bits, the shifted value and the final `num_bits`. -/
def metaBlockNibbleLoop : Nat → Nat → Int → List Bool × Nat × Int
  | 0, v, num_bits => ([], v, num_bits)
  | fuel + 1, v, num_bits =>
    if 0 < num_bits then
      let r := metaBlockNibbleLoop fuel (v / 16) (num_bits - 4)
      (writeBits 4 (v % 16) ++ r.1, r.2)
    else ([], v, num_bits)

/-- `EncodeMetaBlockLength` (encode.cc lines 79-92).  `Log2Floor` lives in
`fast_log.h`, outside this tree; modelled from the spec as `⌊log2⌋` with
`Log2Floor 0 = -1`, so `num_bits = Log2Floor(size) + 1` is `0` for size 0 and
`Nat.log2 size + 1` otherwise.  The trailing `if (num_bits > 0)` residual
write of the source is kept verbatim. -/
def EncodeMetaBlockLength (meta_block_size : Nat) : List Bool :=
  let num_bits : Int :=
    if meta_block_size = 0 then 0 else ((Nat.log2 meta_block_size + 1 : Nat) : Int)
  let r := metaBlockNibbleLoop num_bits.toNat meta_block_size num_bits
  writeBits 1 0 ++ writeBits 3 ((num_bits + 3) / 4).toNat ++ r.1 ++
    (if 0 < r.2.2 then writeBits r.2.2.toNat r.2.1 else [])

/-- `Command` from the encoder, with the C++ trailing-underscore field names.
Lengths, codes and prefixes are non-negative sizes (`Nat`); the raw distance
and the distance code are C `int`s that get compared against sums with
negative value offsets, hence `Int`. -/
structure Command where
  insert_length_ : Nat
  copy_length_ : Nat
  copy_length_code_ : Nat
  copy_distance_ : Int
  distance_code_ : Int
  command_prefix_ : Nat
  distance_prefix_ : Nat
  distance_extra_bits_ : Nat
  distance_extra_bits_value_ : Nat
  deriving Repr, DecidableEq

/-- `kIndexOffset` (encode.cc lines 302-304). -/
def kIndexOffset : List Nat := [3, 2, 1, 0, 3, 3, 3, 3, 3, 3, 2, 2, 2, 2, 2, 2]

/-- `kValueOffset` (encode.cc lines 305-307). -/
def kValueOffset : List Int :=
  [0, 0, 0, 0, -1, 1, -2, 2, -3, 3, -1, 1, -2, 2, -3, 3]

/-- Candidate `k`'s value (encode.cc lines 319-320):
`ring[(idx + kIndexOffset[k]) & 3] + kValueOffset[k]`. -/
def candidateValue (ring : List Int) (idx : Nat) (k : Nat) : Int :=
  ring.getD ((idx + kIndexOffset.getD k 0) % 4) 0 + kValueOffset.getD k 0

/-- The popularity filter (encode.cc line 314): skip candidates
`k ∈ {2,3} ∪ [6,16)` when the distance is below 11. -/
def skipCandidate (dist : Int) (k : Nat) : Bool :=
  decide (dist < 11) && ((decide (2 ≤ k) && decide (k < 4)) || decide (6 ≤ k))

/-- The `for (k = 0; k < 16; ++k)` candidate loop (encode.cc lines 312-325)
as structural recursion over the list of remaining candidate indices: the
first accepted match wins, otherwise the code is `dist + 16`. -/
def shortCodeLoop (ring : List Int) (idx : Nat) (dist : Int) :
    List Nat → Int
  | [] => dist + 16
  | k :: ks =>
    if skipCandidate dist k then shortCodeLoop ring idx dist ks
    else if dist = candidateValue ring idx k then (k : Int) + 1
    else shortCodeLoop ring idx dist ks

/-- `ComputeDistanceShortCodes` (encode.cc lines 299-332): walk the command
list until the first zero distance (exclusive); resolve each distance against
the 16 ring candidates; whenever the resulting code exceeds 1, absorb the raw
distance into the ring at `idx & 3` and advance `idx`. -/
def ComputeDistanceShortCodes :
    List Command → List Int → Nat → List Command × List Int × Nat
  | [], ring, idx => ([], ring, idx)
  | cmd :: cmds, ring, idx =>
    if cmd.copy_distance_ = 0 then (cmd :: cmds, ring, idx)
    else
      let dist_code := shortCodeLoop ring idx cmd.copy_distance_ (List.range 16)
      let ring' :=
        if 1 < dist_code then ring.set (idx % 4) cmd.copy_distance_ else ring
      let idx' := if 1 < dist_code then idx + 1 else idx
      let r := ComputeDistanceShortCodes cmds ring' idx'
      ({ cmd with distance_code_ := dist_code } :: r.1, r.2)

/-- The distance short code as claim C3 words it: `k + 1` for the smallest
`k ∈ [0,16)` whose candidate value equals the distance, where candidates in
`{2,3} ∪ [6,16)` are skipped whenever `dist < 11`; `dist + 16` when no
candidate matches. -/
def distShortCodeSpec (ring : List Int) (idx : Nat) (dist : Int) : Int :=
  match (List.range 16).find? (fun k =>
      !(skipCandidate dist k) &&
        decide (dist = candidateValue ring idx k)) with
  | some k => (k : Int) + 1
  | none => dist + 16

/-- `ComputeDistanceShortCodes` as claim C3 describes it, with the smallest
matching candidate selected by `distShortCodeSpec`. -/
def ComputeDistanceShortCodesSpec :
    List Command → List Int → Nat → List Command × List Int × Nat
  | [], ring, idx => ([], ring, idx)
  | cmd :: cmds, ring, idx =>
    if cmd.copy_distance_ = 0 then (cmd :: cmds, ring, idx)
    else
      let dist_code := distShortCodeSpec ring idx cmd.copy_distance_
      let ring' :=
        if 1 < dist_code then ring.set (idx % 4) cmd.copy_distance_ else ring
      let idx' := if 1 < dist_code then idx + 1 else idx
      let r := ComputeDistanceShortCodesSpec cmds ring' idx'
      ({ cmd with distance_code_ := dist_code } :: r.1, r.2)

/-- The `max_bits` loop of `StoreHuffmanCode` (encode.cc lines 158-163):
the number of binary digits of its argument.  `fuel` keeps the recursion
structural; the initial value `n` always suffices because the argument at
least halves each step. -/
def bitLengthAux : Nat → Nat → Nat
  | 0, _ => 0
  | fuel + 1, n => if n = 0 then 0 else bitLengthAux fuel (n / 2) + 1

/-- `max_bits` for an alphabet bound: `bitLength (alphabet_size - 1)`. -/
def bitLength (n : Nat) : Nat := bitLengthAux n n

/-- One inner pass of the quadratic sort of `StoreHuffmanCode` (encode.cc
lines 176-184) with pivot value `p` at position `k`: scanning the suffix,
whenever a later symbol has strictly smaller depth it is swapped into the
pivot position and the old pivot takes its place.  Returns the final pivot
(a minimum-depth element) and the suffix as the swaps leave it. -/
def selectPass (depth : Nat → Nat) : Nat → List Nat → Nat × List Nat
  | p, [] => (p, [])
  | p, y :: ys =>
    if depth y < depth p then
      let r := selectPass depth y ys
      (r.1, p :: r.2)
    else
      let r := selectPass depth p ys
      (r.1, y :: r.2)

/-- The quadratic exchange sort of `StoreHuffmanCode` (encode.cc lines
171-184), outer loop over `k`.  `fuel` (initially the list length, which
always suffices) keeps the recursion structural. -/
def quadSortAux (depth : Nat → Nat) : Nat → List Nat → List Nat
  | 0, l => l
  | _ + 1, [] => []
  | fuel + 1, x :: xs =>
    let r := selectPass depth x xs
    r.1 :: quadSortAux depth fuel r.2

/-- The quadratic sort on the copied `symbols[)` array. -/
def quadSort (depth : Nat → Nat) (l : List Nat) : List Nat :=
  quadSortAux depth l.length l

/-- `StoreHuffmanCode` (encode.cc lines 154-202) for the empty and simple
(`count_ ≤ 4`) paths.  The complex path (`count_ > 4`) depends on the
external `WriteHuffmanTree` / `BuildEntropyCode` / `HuffmanTreeBitCost`
collaborators (not part of this tree); its locally computed trim decision is
modelled separately by `chooseTrim` / `storeTrimSection`, and the path is
represented here by `none`. -/
def StoreHuffmanCode (code : EntropyCode) (alphabet_size : Nat) :
    Option (List Bool) :=
  let max_bits := bitLength (alphabet_size - 1)
  if code.count_ = 0 then
    some (writeBits (3 + max_bits) 0x01)
  else if code.count_ ≤ 4 then
    let symbols := quadSort code.depth_ (code.symbols_.take code.count_)
    some (writeBits 1 1 ++ writeBits 2 (code.count_ - 1) ++
      symbols.flatMap (fun s => writeBits max_bits s) ++
      (if code.count_ = 4 then
        if symbols.all (fun s => code.depth_ s == 2) then writeBits 1 0
        else writeBits 1 1
      else []))
  else
    none

/-- Stable insertion into a depth-sorted list: the new symbol goes after all
symbols of equal or smaller depth already present. -/
def insertByDepth (depth : Nat → Nat) (x : Nat) : List Nat → List Nat
  | [] => [x]
  | y :: ys =>
    if depth y ≤ depth x then y :: insertByDepth depth x ys else x :: y :: ys

/-- Stable sort by ascending depth (insertion in original order), realizing
the claim's "ties broken by original insertion order". -/
def stableSortByDepth (depth : Nat → Nat) (l : List Nat) : List Nat :=
  l.foldl (fun acc x => insertByDepth depth x acc) []

/-- The simple-path emission exactly as claim C4 words it: the symbols are
listed in ascending depth with ties in original insertion order (a stable
sort). -/
def StoreHuffmanCodeSimpleClaim (code : EntropyCode) (alphabet_size : Nat) :
    List Bool :=
  let max_bits := bitLength (alphabet_size - 1)
  let symbols := stableSortByDepth code.depth_ (code.symbols_.take code.count_)
  writeBits 1 1 ++ writeBits 2 (code.count_ - 1) ++
    symbols.flatMap (fun s => writeBits max_bits s) ++
    (if code.count_ = 4 then
      if symbols.all (fun s => code.depth_ s == 2) then writeBits 1 0
      else writeBits 1 1
    else [])

/-- `kStorageOrder` (encode.cc lines 106-108): the fixed transmission order
of the code-length-code depths. -/
def kStorageOrder : List Nat :=
  [1, 2, 3, 4, 0, 17, 18, 5, 6, 16, 7, 8, 9, 10, 11, 12, 13, 14, 15]

/-- The trailing-zero trimming loop of `StoreHuffmanTreeOfHuffmanTreeToBitMask`
(encode.cc lines 110-115): starting from `kCodeLengthCodes = 19`, decrement
while more than 4 codes remain and the last kept code, in storage order, has
depth 0. -/
def codesToStoreLoop (code_length_bitdepth : Nat → Nat) : Nat → Nat
  | 0 => 0
  | cts + 1 =>
    if 4 < cts + 1 ∧ code_length_bitdepth (kStorageOrder.getD cts 0) = 0 then
      codesToStoreLoop code_length_bitdepth cts
    else cts + 1

/-- The `len[]` table of the fixed code-length-depth code (encode.cc 123). -/
def kCodeLengthDepthLen : List Nat := [2, 4, 3, 2, 2, 4]

/-- The `bits[]` table of the fixed code-length-depth code (encode.cc 124). -/
def kCodeLengthDepthBits : List Nat := [0, 7, 3, 1, 2, 15]

/-- `StoreHuffmanTreeOfHuffmanTreeToBitMask` (encode.cc lines 103-128). -/
def StoreHuffmanTreeOfHuffmanTreeToBitMask
    (code_length_bitdepth : Nat → Nat) : List Bool :=
  let codes_to_store := codesToStoreLoop code_length_bitdepth 19
  let skip_two_first : Bool :=
    decide (code_length_bitdepth (kStorageOrder.getD 0 0) = 0 ∧
      code_length_bitdepth (kStorageOrder.getD 1 0) = 0)
  let start := if skip_two_first then 2 else 0
  writeBits 4 (codes_to_store - 4) ++
    writeBits 1 (if skip_two_first then 1 else 0) ++
    (List.range' start (codes_to_store - start)).flatMap (fun i =>
      let v := code_length_bitdepth (kStorageOrder.getD i 0)
      writeBits (kCodeLengthDepthLen.getD v 0) (kCodeLengthDepthBits.getD v 0))

/-- The `nbitpairs` computation of `StoreHuffmanCode`'s complex path
(encode.cc lines 235-236 and 248-249): `nbits = Log2Ceiling(size - 1)`,
`nbitpairs = (nbits == 0) ? 1 : (nbits + 1) / 2`.  `Log2Ceiling` lives in
`fast_log.h`, outside this tree; modelled from the spec as `⌈log2⌉`
(`Nat.clog 2`). -/
def trimNBitPairs (size : Nat) : Nat :=
  let nbits := Nat.clog 2 (size - 1)
  if nbits = 0 then 1 else (nbits + 1) / 2

/-- The trim decision of `StoreHuffmanCode` (encode.cc line 237): given the
bit costs of the untrimmed and trimmed code-length sequences (computed by the
external `HuffmanTreeBitCost`) and the trimmed size, trimming is chosen iff
`trimmed_bit_cost + 3 + 2 * nbitpairs < huffman_bit_cost`. -/
def chooseTrim (trimmed_bit_cost huffman_bit_cost trimmed_size : Nat) : Bool :=
  decide (trimmed_bit_cost + 3 + 2 * trimNBitPairs trimmed_size <
    huffman_bit_cost)

/-- The length-field emission of `StoreHuffmanCode` (encode.cc lines 246-252):
one flag bit, then, when trimming was chosen, 3 bits of `nbitpairs - 1` and
`nbitpairs * 2` bits of `huffman_tree_size - 2`. -/
def storeTrimSection (write_length : Bool) (huffman_tree_size : Nat) :
    List Bool :=
  writeBits 1 (if write_length then 1 else 0) ++
    (if write_length then
      writeBits 3 (trimNBitPairs huffman_tree_size - 1) ++
        writeBits (trimNBitPairs huffman_tree_size * 2) (huffman_tree_size - 2)
    else [])

/-- `nbitpairs` exactly as claim C6 words it:
`max(1, ⌈(⌈log2(size − 1)⌉ + 1) / 2⌉)`. -/
def trimNBitPairsClaim (size : Nat) : Nat :=
  max 1 ((Nat.clog 2 (size - 1) + 1 + 1) / 2)

/-- The trim decision as claim C6 words it. -/
def chooseTrimClaim (trimmed_bit_cost huffman_bit_cost trimmed_size : Nat) :
    Bool :=
  decide (trimmed_bit_cost + 3 + 2 * trimNBitPairsClaim trimmed_size <
    huffman_bit_cost)

/-- `nbitpairs` as amended: `max(1, ⌊(⌈log2(size − 1)⌉ + 1) / 2⌋)` — the
floor form of the source, with the `nbits = 0` case clamped to 1. -/
def trimNBitPairsAmended (size : Nat) : Nat :=
  max 1 ((Nat.clog 2 (size - 1) + 1) / 2)

/-- The fixed per-depth code exactly as claim C5 tabulates it. -/
def codeLengthDepthCodeClaim (d : Nat) : List Bool :=
  if d = 0 then writeBits 2 0
  else if d = 1 then writeBits 4 7
  else if d = 2 then writeBits 3 3
  else if d = 3 then writeBits 2 1
  else if d = 4 then writeBits 2 2
  else writeBits 4 15

/-- The emission of claim C5 stated from the claim text: `codes_to_store` is
19 minus the number of trailing zeros of the storage ordering, clamped to at
least 4; the skip bit tests symbols 1 and 2; the kept entries are sent with
the fixed per-depth code. -/
def storeHuffmanTreeOfHuffmanTreeClaim (depth : Nat → Nat) : List Bool :=
  let tz := (kStorageOrder.reverse.takeWhile (fun s => depth s == 0)).length
  let codes_to_store := max 4 (19 - tz)
  let skip : Bool := decide (depth 1 = 0 ∧ depth 2 = 0)
  let start := if skip then 2 else 0
  writeBits 4 (codes_to_store - 4) ++
    writeBits 1 (if skip then 1 else 0) ++
    ((kStorageOrder.take codes_to_store).drop start).flatMap
      (fun s => codeLengthDepthCodeClaim (depth s))

/-- The emission of the meta-block length as claim C7 words it: the final
nibble group is truncated to the residual `(⌊log2 L⌋ + 1) % 4` bits whenever
`4 · nibbles` exceeds `⌊log2 L⌋ + 1`. -/
def EncodeMetaBlockLengthClaim (L : Nat) : List Bool :=
  let nb := Nat.log2 L + 1
  let n := (nb + 3) / 4
  writeBits 1 0 ++ writeBits 3 n ++
    (List.range n).flatMap (fun i =>
      if i + 1 = n ∧ nb < 4 * n then writeBits (nb % 4) (L / 16 ^ i)
      else writeBits 4 (L / 16 ^ i % 16))

/-- The meta-block length emission with the residual clause removed: the value
is always sent in full 4-bit nibbles, least-significant first. -/
def EncodeMetaBlockLengthAmended (L : Nat) : List Bool :=
  let nb := Nat.log2 L + 1
  let n := (nb + 3) / 4
  writeBits 1 0 ++ writeBits 3 n ++
    (List.range n).flatMap (fun i => writeBits 4 (L / 16 ^ i % 16))

/-- `MetaBlockLength` (encode.cc lines 680-687): the total number of bytes
covered by a command list. -/
def MetaBlockLength (cmds : List Command) : Nat :=
  (cmds.map (fun cmd => cmd.insert_length_ + cmd.copy_length_)).sum

/-- The literal loop of `StoreMetaBlock` (encode.cc lines 737-749): one
iteration per literal.  The bits of each iteration (the literal split's
`MoveAndEncode`, the context computation and the literal's entropy code, all
of which depend on the current absolute position but never modify it) come
from the abstract emitter `emitLit`; the loop increments `pos` once per
literal, exactly as the source does. -/
def storeLiterals (emitLit : Nat → List Bool) :
    Nat → Nat → List Bool × Nat
  | pos, 0 => ([], pos)
  | pos, n + 1 =>
    let r := storeLiterals emitLit (pos + 1) n
    (emitLit pos ++ r.1, r.2)

/-- The command loop of `StoreMetaBlock` (encode.cc lines 733-760).  The
bit-emitting collaborators are abstracted into parameters — `emitCmd` for the
command split's `MoveAndEncode` plus `EncodeCommand`, `emitLit` for one
literal's emission at a given position, `emitDist` for the distance split's
`MoveAndEncode` plus `EncodeCopyDistance` — because none of them reads or
writes `pos`.  The `pos` bookkeeping (one increment per literal, the
`*pos < end_pos` guard on the distance emission, `*pos += copy_length_`) is
translated verbatim. -/
def storeCommandLoop (emitCmd : Command → List Bool)
    (emitLit : Nat → List Bool) (emitDist : Command → List Bool)
    (end_pos : Nat) : List Command → Nat → List Bool × Nat
  | [], pos => ([], pos)
  | cmd :: cmds, pos =>
    let lits := storeLiterals emitLit pos cmd.insert_length_
    let dbits :=
      if lits.2 < end_pos ∧ cmd.distance_prefix_ ≠ 0xffff then emitDist cmd
      else []
    let r := storeCommandLoop emitCmd emitLit emitDist end_pos cmds
      (lits.2 + cmd.copy_length_)
    (emitCmd cmd ++ lits.1 ++ dbits ++ r.1, r.2)

/-- `StoreMetaBlock` (encode.cc lines 689-761): the meta-block length header,
then the block-split codes, distance parameters, context modes, context maps
and Huffman codes (steps 2-7 of the meta-block layout, abstracted into the
single `headerBits` parameter because none of them touches `pos`), then the
command loop with `end_pos = *pos + length`. -/
def StoreMetaBlock (emitCmd : Command → List Bool)
    (emitLit : Nat → List Bool) (emitDist : Command → List Bool)
    (headerBits : List Bool) (cmds : List Command) (pos : Nat) :
    List Bool × Nat :=
  let length := MetaBlockLength cmds
  let end_pos := pos + length
  let r := storeCommandLoop emitCmd emitLit emitDist end_pos cmds pos
  (EncodeMetaBlockLength (length - 1) ++ headerBits ++ r.1, r.2)

/-- `IndexOf` (encode.cc lines 357-362): index of the first occurrence of a
value.  (The source returns -1 for an absent value; its only callers look up
values known to be present, so that case never arises and the total model
returns the list length instead.) -/
def IndexOf : List Nat → Nat → Nat
  | [], _ => 0
  | y :: ys, x => if y = x then 0 else IndexOf ys x + 1

/-- `MoveToFront` (encode.cc lines 364-370): move the element at `index` to
the front, shifting the prefix one place right. -/
def MoveToFront (v : List Nat) (index : Nat) : List Nat :=
  v.getD index 0 :: v.eraseIdx index

/-- The transform loop of `MoveToFrontTransform` (encode.cc lines 376-381):
emit the current index of each value, then move it to the front. -/
def mtfLoop (mtf : List Nat) : List Nat → List Nat
  | [] => []
  | x :: xs =>
    let index := IndexOf mtf x
    index :: mtfLoop (MoveToFront mtf index) xs

/-- `MoveToFrontTransform` (encode.cc lines 372-383): the table starts as
`[0 .. max v]` (`*max_element` of the non-empty input). -/
def MoveToFrontTransform (v : List Nat) : List Nat :=
  if v = [] then v
  else mtfLoop (List.range (v.foldl max 0 + 1)) v

/-- The longest-zero-run scan of `RunLengthCodeZeros` (encode.cc lines
395-403): skip nonzeros, measure each zero run, keep the maximum.  `fuel`
(the list length suffices) keeps the recursion structural. -/
def maxZeroRunAux : Nat → List Nat → Nat
  | 0, _ => 0
  | _ + 1, [] => 0
  | fuel + 1, x :: xs =>
    if x = 0 then
      max (1 + (xs.takeWhile (fun y => y == 0)).length)
        (maxZeroRunAux fuel (xs.dropWhile (fun y => y == 0)))
    else maxZeroRunAux fuel xs

/-- The maximum zero-run length of a vector. -/
def maxZeroRun (v : List Nat) : Nat := maxZeroRunAux v.length v

/-- The zero-run chunking `while (reps)` of `RunLengthCodeZeros` (encode.cc
lines 417-428), emitting `(run prefix, extra bits)` pairs for a run of
`reps` zeros: runs shorter than `2 << maxp` are coded as
`(Log2Floor reps, reps - (1 << Log2Floor reps))`, longer runs emit the
maximal chunk `(maxp, (1 << maxp) - 1)` covering `(2 << maxp) - 1` zeros.
`Log2Floor` (from `fast_log.h`, outside this tree) is modelled from the spec
as `Nat.log2` (its argument is positive here).  `fuel` (`reps` suffices,
every chunk consuming at least one rep) keeps the recursion structural. -/
def chunkZerosAux (maxp : Nat) : Nat → Nat → List (Nat × Nat)
  | 0, _ => []
  | fuel + 1, reps =>
    if reps = 0 then []
    else if reps < 2 <<< maxp then
      [(Nat.log2 reps, reps - (1 <<< Nat.log2 reps))]
    else
      (maxp, (1 <<< maxp) - 1) ::
        chunkZerosAux maxp fuel (reps - ((2 <<< maxp) - 1))

/-- Chunking one zero run of length `reps`. -/
def chunkZeros (maxp reps : Nat) : List (Nat × Nat) :=
  chunkZerosAux maxp reps reps

/-- The emission loop of `RunLengthCodeZeros` (encode.cc lines 406-430):
nonzero values are shifted by the clamped run-length bound and carry no
extra bits; zero runs are chunked.  The parallel `v_out` / `extra_bits`
vectors of the source are modelled as one list of pairs.  `fuel` (the list
length suffices) keeps the recursion structural. -/
def rleLoopAux (maxp : Nat) : Nat → List Nat → List (Nat × Nat)
  | 0, _ => []
  | _ + 1, [] => []
  | fuel + 1, x :: xs =>
    if x ≠ 0 then (x + maxp, 0) :: rleLoopAux maxp fuel xs
    else
      chunkZeros maxp (1 + (xs.takeWhile (fun y => y == 0)).length) ++
        rleLoopAux maxp fuel (xs.dropWhile (fun y => y == 0))

/-- The RLE emission over a whole vector. -/
def rleLoop (maxp : Nat) (v : List Nat) : List (Nat × Nat) :=
  rleLoopAux maxp v.length v

/-- `RunLengthCodeZeros` (encode.cc lines 391-431): clamp the caller's
maximum run-length code to `Log2Floor(max_reps)` (modelled as `Nat.log2`,
with 0 for a vector without zeros), then emit; returns the clamped bound and
the `(symbol, extra bits)` stream. -/
def RunLengthCodeZeros (v : List Nat) (max_run_length_pfx : Nat) :
    Nat × List (Nat × Nat) :=
  let max_reps := maxZeroRun v
  let maxp :=
    min (if 0 < max_reps then Nat.log2 max_reps else 0) max_run_length_pfx
  (maxp, rleLoop maxp v)

/-- Modelled from the spec: the decoder-side inverse of the zero-run-length
coding (spec §4.6 step 2; the decoder is not part of this tree).  A token
`t ≤ max` with extra bits `e` decodes to a run of `2^t + e` zeros; a larger
token decodes to the single value `t - max`. -/
def runLengthDecodeZeros (maxp : Nat) : List (Nat × Nat) → List Nat
  | [] => []
  | (t, e) :: rest =>
    if t ≤ maxp then
      List.replicate ((1 <<< t) + e) 0 ++ runLengthDecodeZeros maxp rest
    else (t - maxp) :: runLengthDecodeZeros maxp rest

/-- Modelled from the spec: the decoder-side inverse move-to-front (spec
§4.6 step 1; the decoder is not part of this tree): read each transmitted
index off the same evolving front-moved table. -/
def inverseMtfLoop (mtf : List Nat) : List Nat → List Nat
  | [] => []
  | i :: is => mtf.getD i 0 :: inverseMtfLoop (MoveToFront mtf i) is

end Brotli

namespace Brotli

/-- Unfolding a `flatMap` over `List.range` at the head. -/
theorem flatMap_range_succ_shift (f : Nat → List Bool) (n : Nat) :
    (List.range (n + 1)).flatMap f =
      f 0 ++ (List.range n).flatMap (fun i => f (i + 1)) := by
  induction n with
  | zero => simp [List.range_succ]
  | succ m ih =>
    rw [List.range_succ, List.flatMap_append, ih, List.range_succ,
      List.flatMap_append]
    simp

/-- The nibble loop runs `n = ⌈num_bits / 4⌉` iterations, emitting the 4-bit
groups of `v` least-significant first, and leaves `num_bits - 4n ≤ 0`. -/
theorem metaBlockNibbleLoop_eq (n : Nat) :
    ∀ (fuel v : Nat) (nb : Int), nb ≤ 4 * n → 4 * n < nb + 4 → n ≤ fuel →
      metaBlockNibbleLoop fuel v nb =
        ((List.range n).flatMap (fun i => writeBits 4 (v / 16 ^ i % 16)),
          v / 16 ^ n, nb - 4 * n) := by
  induction n with
  | zero =>
    intro fuel v nb h1 h2 h3
    match fuel with
    | 0 => simp [metaBlockNibbleLoop]
    | fuel + 1 =>
      have hnb : ¬ (0 < nb) := by omega
      simp [metaBlockNibbleLoop, hnb]
  | succ m ih =>
    intro fuel v nb h1 h2 h3
    match fuel, h3 with
    | fuel + 1, _ =>
      have hnb : 0 < nb := by omega
      rw [metaBlockNibbleLoop, if_pos hnb,
        ih fuel (v / 16) (nb - 4) (by omega) (by omega) (by omega),
        flatMap_range_succ_shift]
      simp only [Prod.mk.injEq]
      refine ⟨?_, ?_, by push_cast; ring⟩
      · simp [pow_succ, Nat.div_div_eq_div_mul, Nat.mul_comm]
      · simp [pow_succ, Nat.div_div_eq_div_mul, Nat.mul_comm]

/-- Claim C7 (amended): for `L ≥ 1` the emitted stream is 1 bit `0`, 3 bits
holding `⌈(⌊log2 L⌋ + 1) / 4⌉`, then that many full 4-bit nibbles of `L`,
least-significant first — the residual branch of the source is dead code. -/
theorem encodeMetaBlockLength_amended (L : Nat) (h : 1 ≤ L) :
    EncodeMetaBlockLength L = EncodeMetaBlockLengthAmended L := by
  have hL : ¬ (L = 0) := by omega
  simp only [EncodeMetaBlockLength, EncodeMetaBlockLengthAmended, if_neg hL]
  rw [metaBlockNibbleLoop_eq ((Nat.log2 L + 1 + 3) / 4) _ L _ (by omega)
    (by omega) (by omega)]
  dsimp only
  have hres :
      ¬ (0 < ((Nat.log2 L + 1 : Nat) : Int) -
        4 * (((Nat.log2 L + 1 + 3) / 4 : Nat) : Int)) := by omega
  have hcount :
      ((((Nat.log2 L + 1 : Nat) : Int) + 3) / 4).toNat =
        (Nat.log2 L + 1 + 3) / 4 := by omega
  rw [if_neg hres, hcount]
  simp

/-- Witness for the amended C7 at `L = 9`. -/
theorem encodeMetaBlockLength_amended_witness :
    1 ≤ 9 ∧ EncodeMetaBlockLength 9 = EncodeMetaBlockLengthAmended 9 :=
  ⟨by decide, encodeMetaBlockLength_amended 9 (by decide)⟩

/-- Counterexample to claim C7 as stated: at `L = 1` the source emits a full
4-bit nibble (8 bits in total), while the claimed residual rule would emit a
single residual bit (5 bits in total). -/
theorem encodeMetaBlockLength_claim_counterexample :
    EncodeMetaBlockLength 1 ≠ EncodeMetaBlockLengthClaim 1 := by
  have h1 : Nat.log2 1 = 0 := by simp [Nat.log2]
  simp only [EncodeMetaBlockLength, EncodeMetaBlockLengthClaim, h1]
  decide

theorem kStorageOrder_length : kStorageOrder.length = 19 := rfl

/-- The trimming loop computes `max 4 (cts - trailing zero count)`. -/
theorem codesToStoreLoop_eq (depth : Nat → Nat) :
    ∀ cts, 4 ≤ cts → cts ≤ 19 →
      codesToStoreLoop depth cts =
        max 4 (cts -
          ((kStorageOrder.take cts).reverse.takeWhile
            (fun s => depth s == 0)).length) := by
  intro cts
  induction cts with
  | zero => intro h4 _; omega
  | succ m ih =>
    intro h4 h19
    have hm : m < kStorageOrder.length := by rw [kStorageOrder_length]; omega
    have htake : (kStorageOrder.take (m + 1)).reverse =
        kStorageOrder[m] :: (kStorageOrder.take m).reverse := by
      rw [List.take_succ, List.getElem?_eq_getElem hm]
      simp
    have hgd : kStorageOrder.getD m 0 = kStorageOrder[m] :=
      List.getD_eq_getElem kStorageOrder 0 hm
    simp only [codesToStoreLoop]
    by_cases hgt : 4 < m + 1
    · by_cases hz : depth (kStorageOrder.getD m 0) = 0
      · rw [if_pos ⟨hgt, hz⟩, ih (by omega) (by omega), htake,
          List.takeWhile_cons]
        rw [hgd] at hz
        simp only [hz, beq_self_eq_true, if_true, List.length_cons]
        omega
      · rw [if_neg (fun hc => hz hc.2), htake, List.takeWhile_cons]
        rw [hgd] at hz
        have : (depth kStorageOrder[m] == 0) = false := by
          simp [hz]
        simp only [this, if_false, Bool.false_eq_true, List.length_nil]
        omega
    · rw [if_neg (fun hc => hgt hc.1)]
      have hm4 : m + 1 = 4 := by omega
      rw [hm4]
      have hlen : ((kStorageOrder.take 4).reverse.takeWhile
          (fun s => depth s == 0)).length ≤ 4 := by
        calc ((kStorageOrder.take 4).reverse.takeWhile
            (fun s => depth s == 0)).length
            ≤ (kStorageOrder.take 4).reverse.length :=
              (List.takeWhile_sublist _).length_le
          _ ≤ 4 := by simp
      omega

/-- A `flatMap` over `range' a n` through `kStorageOrder.getD` is a `flatMap`
over the corresponding slice of `kStorageOrder`. -/
theorem flatMap_range'_storageOrder (g : Nat → List Bool) :
    ∀ n a, a + n ≤ 19 →
      (List.range' a n).flatMap (fun i => g (kStorageOrder.getD i 0)) =
        ((kStorageOrder.drop a).take n).flatMap g := by
  intro n
  induction n with
  | zero => intro a _; simp
  | succ m ih =>
    intro a h
    have ha : a < kStorageOrder.length := by rw [kStorageOrder_length]; omega
    rw [List.range'_succ, List.flatMap_cons, ih (a + 1) (by omega),
      List.drop_eq_getElem_cons ha, List.getD_eq_getElem kStorageOrder 0 ha,
      List.take_succ_cons, List.flatMap_cons]

/-- The table lookup of the fixed code agrees with the claimed per-depth code
for all depths in the limited range `0..5`. -/
theorem codeLengthDepthCode_eq (d : Nat) (h : d ≤ 5) :
    writeBits (kCodeLengthDepthLen.getD d 0) (kCodeLengthDepthBits.getD d 0) =
      codeLengthDepthCodeClaim d := by
  interval_cases d <;> rfl

/-- Pointwise equal emissions give equal `flatMap`s. -/
theorem flatMap_congr_mem {α : Type} (l : List α) (f g : α → List Bool)
    (h : ∀ x ∈ l, f x = g x) : l.flatMap f = l.flatMap g := by
  induction l with
  | nil => rfl
  | cons x xs ih =>
    rw [List.flatMap_cons, List.flatMap_cons, h x (by simp),
      ih (fun y hy => h y (by simp [hy]))]

/-- Claim C5: `StoreHuffmanTreeOfHuffmanTreeToBitMask` emits 4 bits of
`codes_to_store - 4` with `codes_to_store = max 4 (19 - trailing zeros of the
storage ordering)`, a skip bit testing symbols 1 and 2 (skipping those two
entries when set), then the kept entries' depths in the fixed per-depth code,
for every depth assignment limited to 5 bits. -/
theorem storeHuffmanTreeOfHuffmanTree_format (depth : Nat → Nat)
    (h5 : ∀ s ∈ kStorageOrder, depth s ≤ 5) :
    StoreHuffmanTreeOfHuffmanTreeToBitMask depth =
      storeHuffmanTreeOfHuffmanTreeClaim depth := by
  simp only [StoreHuffmanTreeOfHuffmanTreeToBitMask,
    storeHuffmanTreeOfHuffmanTreeClaim]
  rw [codesToStoreLoop_eq depth 19 (by omega) (by omega)]
  have htk : kStorageOrder.take 19 = kStorageOrder := rfl
  have hg0 : kStorageOrder.getD 0 0 = 1 := rfl
  have hg1 : kStorageOrder.getD 1 0 = 2 := rfl
  rw [htk, hg0, hg1]
  have hc4 : 4 ≤ max 4 (19 -
      (kStorageOrder.reverse.takeWhile (fun s => depth s == 0)).length) :=
    le_max_left _ _
  have hc19 : max 4 (19 -
      (kStorageOrder.reverse.takeWhile (fun s => depth s == 0)).length) ≤ 19 := by
    omega
  set c := max 4 (19 -
    (kStorageOrder.reverse.takeWhile (fun s => depth s == 0)).length) with hc
  set sk : Bool := decide (depth 1 = 0 ∧ depth 2 = 0) with hsk
  have hstart : (if sk then 2 else 0) + (c - (if sk then 2 else 0)) ≤ 19 := by
    cases sk <;> simp <;> omega
  have hbody := flatMap_range'_storageOrder
    (fun s => writeBits (kCodeLengthDepthLen.getD (depth s) 0)
      (kCodeLengthDepthBits.getD (depth s) 0))
    (c - (if sk then 2 else 0)) (if sk then 2 else 0) hstart
  simp only [hbody, List.drop_take]
  exact congrArg₂ _ rfl (flatMap_congr_mem _ _ _ (fun s hs =>
    codeLengthDepthCode_eq (depth s)
      (h5 s (List.mem_of_mem_drop (List.mem_of_mem_take hs)))))

/-- Witness for C5 at a concrete depth table. -/
theorem storeHuffmanTreeOfHuffmanTree_format_witness :
    (∀ s ∈ kStorageOrder,
      (fun s =>
        ([0, 2, 3, 0, 1, 0, 0, 0, 0, 0, 0, 0, 0, 0, 0, 0, 0, 4, 5] :
          List Nat).getD s 0) s ≤ 5) ∧
      StoreHuffmanTreeOfHuffmanTreeToBitMask
          (fun s =>
            ([0, 2, 3, 0, 1, 0, 0, 0, 0, 0, 0, 0, 0, 0, 0, 0, 0, 4, 5] :
              List Nat).getD s 0) =
        storeHuffmanTreeOfHuffmanTreeClaim
          (fun s =>
            ([0, 2, 3, 0, 1, 0, 0, 0, 0, 0, 0, 0, 0, 0, 0, 0, 0, 4, 5] :
              List Nat).getD s 0) :=
  ⟨by decide, storeHuffmanTreeOfHuffmanTree_format _ (by decide)⟩

/-- A present value's first-occurrence index is within bounds. -/
theorem indexOf_lt_length :
    ∀ (l : List Nat) (x : Nat), x ∈ l → IndexOf l x < l.length := by
  intro l
  induction l with
  | nil => intro x hx; cases hx
  | cons y ys ih =>
    intro x hx
    rw [IndexOf]
    by_cases h : y = x
    · simp [h]
    · rw [if_neg h]
      have hx' : x ∈ ys := by
        rcases List.mem_cons.mp hx with rfl | h2
        · exact absurd rfl h
        · exact h2
      simpa using ih x hx'

/-- Reading the table at a present value's index gives back the value. -/
theorem getD_indexOf :
    ∀ (l : List Nat) (x : Nat), x ∈ l → l.getD (IndexOf l x) 0 = x := by
  intro l
  induction l with
  | nil => intro x hx; cases hx
  | cons y ys ih =>
    intro x hx
    rw [IndexOf]
    by_cases h : y = x
    · simp [h]
    · rw [if_neg h]
      have hx' : x ∈ ys := by
        rcases List.mem_cons.mp hx with rfl | h2
        · exact absurd rfl h
        · exact h2
      exact ih x hx'

/-- Moving a present value to the front permutes the table. -/
theorem moveToFront_indexOf_perm :
    ∀ (l : List Nat) (x : Nat), x ∈ l →
      List.Perm (MoveToFront l (IndexOf l x)) l := by
  intro l
  induction l with
  | nil => intro x hx; cases hx
  | cons y ys ih =>
    intro x hx
    by_cases h : y = x
    · have h0 : IndexOf (y :: ys) x = 0 := by rw [IndexOf, if_pos h]
      rw [h0]
      exact List.Perm.refl _
    · have hx' : x ∈ ys := by
        rcases List.mem_cons.mp hx with rfl | h2
        · exact absurd rfl h
        · exact h2
      have hstep : IndexOf (y :: ys) x = IndexOf ys x + 1 := by
        rw [IndexOf, if_neg h]
      rw [hstep]
      show List.Perm (ys.getD (IndexOf ys x) 0 :: y :: ys.eraseIdx (IndexOf ys x))
        (y :: ys)
      exact (List.Perm.swap y _ _).trans ((ih x hx').cons y)

/-- The modelled inverse MTF undoes the forward loop over any table that
contains every transformed value. -/
theorem inverseMtfLoop_mtfLoop :
    ∀ (v : List Nat) (table : List Nat), (∀ x ∈ v, x ∈ table) →
      inverseMtfLoop table (mtfLoop table v) = v := by
  intro v
  induction v with
  | nil => intro table _; rfl
  | cons x xs ih =>
    intro table h
    have hx : x ∈ table := h x (by simp)
    simp only [mtfLoop, inverseMtfLoop]
    rw [getD_indexOf table x hx,
      ih (MoveToFront table (IndexOf table x)) (fun y hy =>
        ((moveToFront_indexOf_perm table x hx).mem_iff).mpr
          (h y (by simp [hy])))]

/-- The seed of a `foldl max` bounds nothing above it. -/
theorem foldl_max_init :
    ∀ (v : List Nat) (a : Nat), a ≤ v.foldl max a := by
  intro v
  induction v with
  | nil => intro a; exact le_rfl
  | cons y ys ih =>
    intro a
    exact le_trans (le_max_left a y) (ih (max a y))

/-- Every member is bounded by the `foldl max`. -/
theorem le_foldl_max :
    ∀ (v : List Nat) (a x : Nat), x ∈ v → x ≤ v.foldl max a := by
  intro v
  induction v with
  | nil => intro a x hx; cases hx
  | cons y ys ih =>
    intro a x hx
    rcases List.mem_cons.mp hx with rfl | hx'
    · exact le_trans (le_max_right a x) (foldl_max_init ys (max a x))
    · exact ih (max a y) x hx'

/-- Decoding one chunked zero run yields exactly that many zeros. -/
theorem chunkZerosAux_decode (maxp : Nat) :
    ∀ (fuel reps : Nat), reps ≤ fuel → ∀ rest,
      runLengthDecodeZeros maxp (chunkZerosAux maxp fuel reps ++ rest) =
        List.replicate reps 0 ++ runLengthDecodeZeros maxp rest := by
  intro fuel
  induction fuel with
  | zero =>
    intro reps h rest
    have : reps = 0 := by omega
    subst this
    rfl
  | succ f ih =>
    intro reps h rest
    rw [chunkZerosAux]
    by_cases h0 : reps = 0
    · subst h0
      rw [if_pos rfl]
      rfl
    · rw [if_neg h0]
      have h2pow : 2 <<< maxp = 2 ^ (maxp + 1) := by
        rw [Nat.shiftLeft_eq, Nat.pow_succ]
        ring
      by_cases hlt : reps < 2 <<< maxp
      · rw [if_pos hlt]
        have ht : Nat.log2 reps ≤ maxp := by
          have := (Nat.log2_lt h0).mpr (by rw [h2pow] at hlt; exact hlt)
          omega
        rw [List.cons_append, runLengthDecodeZeros, if_pos ht]
        have hle : 1 <<< Nat.log2 reps ≤ reps := by
          rw [Nat.shiftLeft_eq, one_mul]
          exact Nat.log2_self_le h0
        have hsum : (1 <<< Nat.log2 reps) + (reps - (1 <<< Nat.log2 reps)) =
            reps := by omega
        rw [hsum]
        rfl
      · rw [if_neg hlt]
        have hpos : 0 < 2 ^ maxp := pow_pos (by norm_num) maxp
        have h2m : 2 <<< maxp = 2 * 2 ^ maxp := by
          rw [h2pow, Nat.pow_succ]
          ring
        have h1m : 1 <<< maxp = 2 ^ maxp := by
          rw [Nat.shiftLeft_eq, one_mul]
        have hsub : reps - ((2 <<< maxp) - 1) ≤ f := by omega
        rw [List.cons_append, runLengthDecodeZeros, if_pos (le_refl maxp),
          ih _ hsub rest, ← List.append_assoc, ← List.replicate_add]
        have hcount : (1 <<< maxp) + ((1 <<< maxp) - 1) +
            (reps - ((2 <<< maxp) - 1)) = reps := by
          rw [h1m, h2m]
          omega
        rw [hcount]

/-- Decoding one zero run via `chunkZeros`. -/
theorem chunkZeros_decode (maxp reps : Nat) (rest : List (Nat × Nat)) :
    runLengthDecodeZeros maxp (chunkZeros maxp reps ++ rest) =
      List.replicate reps 0 ++ runLengthDecodeZeros maxp rest :=
  chunkZerosAux_decode maxp reps reps le_rfl rest

/-- The modelled inverse RLE undoes the emission loop, for every clamp
value. -/
theorem rleLoopAux_decode (maxp : Nat) :
    ∀ (fuel : Nat) (v : List Nat), v.length ≤ fuel →
      runLengthDecodeZeros maxp (rleLoopAux maxp fuel v) = v := by
  intro fuel
  induction fuel with
  | zero =>
    intro v h
    have : v = [] := List.length_eq_zero.mp (by omega)
    subst this
    rfl
  | succ f ih =>
    intro v h
    match v with
    | [] => rfl
    | x :: xs =>
      rw [rleLoopAux]
      by_cases hx : x ≠ 0
      · rw [if_pos hx, runLengthDecodeZeros,
          if_neg (by omega : ¬ (x + maxp ≤ maxp)),
          ih xs (by simpa using h)]
        congr 1
        omega
      · rw [if_neg hx]
        push_neg at hx
        have hd : (xs.dropWhile (fun y => y == 0)).length ≤ f :=
          le_trans (List.dropWhile_sublist _).length_le (by simpa using h)
        rw [chunkZeros_decode, ih _ hd]
        have htw : xs.takeWhile (fun y => y == 0) =
            List.replicate ((xs.takeWhile (fun y => y == 0)).length) 0 := by
          rw [List.eq_replicate_iff]
          exact ⟨rfl, fun b hb => by simpa using List.mem_takeWhile_imp hb⟩
        rw [Nat.add_comm 1, List.replicate_succ, List.cons_append, ← htw,
          List.takeWhile_append_dropWhile, hx]

/-- Claim C9: for every vector of non-negative integers and every admitted
initial `max_run_length` bound, inverse MTF ∘ inverse RLE ∘
`RunLengthCodeZeros` (with its clamped bound) ∘ `MoveToFrontTransform`
is the identity. -/
theorem mtf_rle_roundtrip (v : List Nat) (max_run_length_pfx : Nat) :
    inverseMtfLoop (List.range (v.foldl max 0 + 1))
      (runLengthDecodeZeros
        (RunLengthCodeZeros (MoveToFrontTransform v) max_run_length_pfx).1
        (RunLengthCodeZeros (MoveToFrontTransform v) max_run_length_pfx).2)
      = v := by
  unfold RunLengthCodeZeros
  dsimp only
  rw [rleLoop, rleLoopAux_decode _ _ _ le_rfl]
  unfold MoveToFrontTransform
  by_cases hv : v = []
  · subst hv
    rfl
  · rw [if_neg hv]
    exact inverseMtfLoop_mtfLoop v _ (fun x hx =>
      List.mem_range.mpr (by
        have := le_foldl_max v 0 x hx
        omega))

/-- The literal loop advances `pos` by exactly the insert length. -/
theorem storeLiterals_pos (emitLit : Nat → List Bool) :
    ∀ (n pos : Nat), (storeLiterals emitLit pos n).2 = pos + n := by
  intro n
  induction n with
  | zero => intro pos; rfl
  | succ m ih =>
    intro pos
    simp only [storeLiterals]
    rw [ih (pos + 1)]
    omega

/-- The command loop advances `pos` by the meta-block length. -/
theorem storeCommandLoop_pos (emitCmd : Command → List Bool)
    (emitLit : Nat → List Bool) (emitDist : Command → List Bool)
    (end_pos : Nat) :
    ∀ (cmds : List Command) (pos : Nat),
      (storeCommandLoop emitCmd emitLit emitDist end_pos cmds pos).2 =
        pos + MetaBlockLength cmds := by
  intro cmds
  induction cmds with
  | nil => intro pos; simp [storeCommandLoop, MetaBlockLength]
  | cons cmd cmds ih =>
    intro pos
    simp only [storeCommandLoop]
    rw [ih, storeLiterals_pos]
    simp only [MetaBlockLength, List.map_cons, List.sum_cons]
    omega

/-- Claim C8: for every meta-block command list and initial position `p`,
after `StoreMetaBlock` the position equals `p` plus the meta-block length,
i.e. the sum over all commands of `insert_length_ + copy_length_` —
whatever bits the abstracted collaborators emit. -/
theorem storeMetaBlock_pos (emitCmd : Command → List Bool)
    (emitLit : Nat → List Bool) (emitDist : Command → List Bool)
    (headerBits : List Bool) (cmds : List Command) (pos : Nat) :
    (StoreMetaBlock emitCmd emitLit emitDist headerBits cmds pos).2 =
      pos + MetaBlockLength cmds := by
  unfold StoreMetaBlock
  exact storeCommandLoop_pos emitCmd emitLit emitDist _ cmds pos

/-- The sequential candidate loop returns the first (i.e. smallest-index)
accepted match, as a `find?` over the candidate list. -/
theorem shortCodeLoop_eq_find (ring : List Int) (idx : Nat) (dist : Int) :
    ∀ ks : List Nat,
      shortCodeLoop ring idx dist ks =
        match ks.find? (fun k =>
            !(skipCandidate dist k) &&
              decide (dist = candidateValue ring idx k)) with
        | some k => (k : Int) + 1
        | none => dist + 16 := by
  intro ks
  induction ks with
  | nil => rfl
  | cons k ks ih =>
    rw [shortCodeLoop]
    by_cases hs : skipCandidate dist k = true
    · have hn : ¬ ((fun k => !skipCandidate dist k &&
          decide (dist = candidateValue ring idx k)) k = true) := by
        simp [hs]
      rw [if_pos hs,
        @List.find?_cons_of_neg Nat
          (fun k => !skipCandidate dist k &&
            decide (dist = candidateValue ring idx k)) k ks hn, ih]
    · rw [if_neg hs]
      by_cases he : dist = candidateValue ring idx k
      · have hp : ((fun k => !skipCandidate dist k &&
            decide (dist = candidateValue ring idx k)) k = true) := by
          show (!skipCandidate dist k &&
            decide (dist = candidateValue ring idx k)) = true
          rw [Bool.and_eq_true, Bool.not_eq_true']
          exact ⟨by simpa using hs, decide_eq_true he⟩
        rw [if_pos he,
          @List.find?_cons_of_pos Nat
            (fun k => !skipCandidate dist k &&
              decide (dist = candidateValue ring idx k)) k ks hp]
      · have hn : ¬ ((fun k => !skipCandidate dist k &&
            decide (dist = candidateValue ring idx k)) k = true) := by
          simp [hs, he]
        rw [if_neg he,
          @List.find?_cons_of_neg Nat
            (fun k => !skipCandidate dist k &&
              decide (dist = candidateValue ring idx k)) k ks hn, ih]

/-- Claim C3: `ComputeDistanceShortCodes` processes commands in order until
the first zero distance; each processed command's `distance_code_` becomes
`k + 1` for the smallest matching candidate `k` (skipping `{2,3} ∪ [6,16)`
when `dist < 11`) or `dist + 16` when none matches; and exactly when the
resulting code exceeds 1 the ring absorbs the distance at `idx & 3` and the
index advances. -/
theorem computeDistanceShortCodes_spec :
    ∀ (cmds : List Command) (ring : List Int) (idx : Nat),
      ComputeDistanceShortCodes cmds ring idx =
        ComputeDistanceShortCodesSpec cmds ring idx := by
  intro cmds
  induction cmds with
  | nil => intro ring idx; rfl
  | cons cmd cmds ih =>
    intro ring idx
    simp only [ComputeDistanceShortCodes, ComputeDistanceShortCodesSpec]
    by_cases h0 : cmd.copy_distance_ = 0
    · rw [if_pos h0, if_pos h0]
    · rw [if_neg h0, if_neg h0, shortCodeLoop_eq_find, ih]
      rfl

/-- `bitLengthAux` computes `⌊log2 n⌋ + 1` (or 0 for 0) given enough fuel. -/
theorem bitLengthAux_eq (fuel : Nat) :
    ∀ n, n ≤ fuel →
      bitLengthAux fuel n = if n = 0 then 0 else Nat.log2 n + 1 := by
  induction fuel with
  | zero =>
    intro n h
    have hn : n = 0 := by omega
    subst hn
    rfl
  | succ f ih =>
    intro n h
    by_cases h0 : n = 0
    · simp [bitLengthAux, h0]
    · rw [bitLengthAux, if_neg h0, ih (n / 2) (by omega)]
      by_cases h1 : n / 2 = 0
      · have hn1 : n = 1 := by omega
        subst hn1
        simp [Nat.log2]
      · rw [if_neg h1, if_neg h0]
        have e1 : 2 ^ (Nat.log2 (n / 2) + 1) =
            2 * 2 ^ (Nat.log2 (n / 2)) := by
          rw [pow_succ]; ring
        have e2 : 2 ^ (Nat.log2 (n / 2) + 2) =
            4 * 2 ^ (Nat.log2 (n / 2)) := by
          rw [pow_succ, pow_succ]; ring
        have hk1 : 2 ^ (Nat.log2 (n / 2)) ≤ n / 2 := Nat.log2_self_le h1
        have hk2 : n / 2 < 2 ^ (Nat.log2 (n / 2) + 1) := Nat.lt_log2_self
        have hlow : Nat.log2 (n / 2) + 1 ≤ Nat.log2 n := by
          rw [Nat.le_log2 h0, e1]
          omega
        have hhigh : Nat.log2 n < Nat.log2 (n / 2) + 2 := by
          rw [Nat.log2_lt h0, e2]
          rw [e1] at hk2
          omega
        omega

/-- `max_bits = bitLength (A - 1)` is `⌈log2 A⌉` for every `A ≥ 1`. -/
theorem bitLength_eq_clog (A : Nat) (hA : 1 ≤ A) :
    bitLength (A - 1) = Nat.clog 2 A := by
  unfold bitLength
  rw [bitLengthAux_eq (A - 1) (A - 1) le_rfl]
  by_cases h1 : A - 1 = 0
  · have : A = 1 := by omega
    subst this
    simp [Nat.clog_one_right]
  · rw [if_neg h1]
    have hup : Nat.clog 2 A ≤ Nat.log2 (A - 1) + 1 := by
      rw [← Nat.le_pow_iff_clog_le (by norm_num)]
      have := Nat.lt_log2_self (n := A - 1)
      omega
    have hlow : Nat.log2 (A - 1) < Nat.clog 2 A := by
      rw [← Nat.pow_lt_iff_lt_clog (by norm_num)]
      have := Nat.log2_self_le h1
      omega
    omega

/-- `selectPass` preserves the length of the suffix. -/
theorem selectPass_length (depth : Nat → Nat) :
    ∀ (ys : List Nat) (p : Nat),
      (selectPass depth p ys).2.length = ys.length := by
  intro ys
  induction ys with
  | nil => intro p; rfl
  | cons y ys ih =>
    intro p
    simp only [selectPass]
    by_cases h : depth y < depth p
    · simp [h, ih y]
    · simp [h, ih p]

/-- `selectPass` permutes the pivot and suffix. -/
theorem selectPass_perm (depth : Nat → Nat) :
    ∀ (ys : List Nat) (p : Nat),
      List.Perm ((selectPass depth p ys).1 :: (selectPass depth p ys).2)
        (p :: ys) := by
  intro ys
  induction ys with
  | nil => intro p; exact List.Perm.refl _
  | cons y ys ih =>
    intro p
    simp only [selectPass]
    by_cases h : depth y < depth p
    · rw [if_pos h]
      exact (List.Perm.swap p _ _).trans ((ih y).cons p)
    · rw [if_neg h]
      exact (List.Perm.swap y _ _).trans
        (((ih p).cons y).trans (List.Perm.swap p y ys))

/-- The `selectPass` pivot is a minimum of pivot and suffix. -/
theorem selectPass_min (depth : Nat → Nat) :
    ∀ (ys : List Nat) (p : Nat),
      depth (selectPass depth p ys).1 ≤ depth p ∧
      ∀ z ∈ (selectPass depth p ys).2,
        depth (selectPass depth p ys).1 ≤ depth z := by
  intro ys
  induction ys with
  | nil => intro p; exact ⟨le_rfl, by simp [selectPass]⟩
  | cons y ys ih =>
    intro p
    simp only [selectPass]
    by_cases h : depth y < depth p
    · rw [if_pos h]
      refine ⟨le_of_lt (lt_of_le_of_lt (ih y).1 h), ?_⟩
      intro z hz
      rcases List.mem_cons.mp hz with rfl | hz
      · exact le_of_lt (lt_of_le_of_lt (ih y).1 h)
      · exact (ih y).2 z hz
    · rw [if_neg h]
      refine ⟨(ih p).1, ?_⟩
      intro z hz
      rcases List.mem_cons.mp hz with rfl | hz
      · exact le_trans (ih p).1 (not_lt.mp h)
      · exact (ih p).2 z hz

/-- The quadratic sort is a permutation (given enough fuel). -/
theorem quadSortAux_perm (depth : Nat → Nat) :
    ∀ (fuel : Nat) (l : List Nat), l.length ≤ fuel →
      List.Perm (quadSortAux depth fuel l) l := by
  intro fuel
  induction fuel with
  | zero => intro l h; exact List.Perm.refl l
  | succ f ih =>
    intro l h
    match l with
    | [] => exact List.Perm.refl _
    | x :: xs =>
      simp only [quadSortAux]
      have hlen : (selectPass depth x xs).2.length ≤ f := by
        rw [selectPass_length]
        simpa using h
      exact ((ih _ hlen).cons _).trans (selectPass_perm depth xs x)

/-- The quadratic sort orders by ascending depth (given enough fuel). -/
theorem quadSortAux_sorted (depth : Nat → Nat) :
    ∀ (fuel : Nat) (l : List Nat), l.length ≤ fuel →
      (quadSortAux depth fuel l).Pairwise
        (fun a b => depth a ≤ depth b) := by
  intro fuel
  induction fuel with
  | zero =>
    intro l h
    have : l = [] := List.length_eq_zero.mp (by omega)
    subst this
    simp [quadSortAux]
  | succ f ih =>
    intro l h
    match l with
    | [] => simp [quadSortAux]
    | x :: xs =>
      simp only [quadSortAux]
      have hlen : (selectPass depth x xs).2.length ≤ f := by
        rw [selectPass_length]
        simpa using h
      refine List.Pairwise.cons (fun z hz => ?_) (ih _ hlen)
      exact (selectPass_min depth xs x).2 z
        ((quadSortAux_perm depth f _ hlen).subset hz)

/-- `quadSort` permutes its input. -/
theorem quadSort_perm (depth : Nat → Nat) (l : List Nat) :
    List.Perm (quadSort depth l) l :=
  quadSortAux_perm depth l.length l le_rfl

/-- `quadSort` sorts by ascending depth. -/
theorem quadSort_sorted (depth : Nat → Nat) (l : List Nat) :
    (quadSort depth l).Pairwise (fun a b => depth a ≤ depth b) :=
  quadSortAux_sorted depth l.length l le_rfl

/-- Claim C4 (amended): for every entropy code with `1 ≤ count ≤ 4`,
`StoreHuffmanCode` emits flag 1, 2 bits of `count − 1`, the `count` symbols
in ascending-depth order as produced by the source's quadratic exchange sort
(a permutation of the symbol list, but NOT a stable sort: equal-depth symbols
may be reordered), each in `⌈log2 A⌉` bits, and, when `count = 4`, one extra
bit that is 0 iff all four symbols have depth 2. -/
theorem storeHuffmanCode_simple_amended (code : EntropyCode)
    (alphabet_size : Nat) (hA : 1 ≤ alphabet_size)
    (h1 : 1 ≤ code.count_) (h4 : code.count_ ≤ 4)
    (hlen : code.symbols_.length = code.count_) :
    List.Perm (quadSort code.depth_ code.symbols_) code.symbols_ ∧
    (quadSort code.depth_ code.symbols_).Pairwise
      (fun a b => code.depth_ a ≤ code.depth_ b) ∧
    bitLength (alphabet_size - 1) = Nat.clog 2 alphabet_size ∧
    StoreHuffmanCode code alphabet_size =
      some (writeBits 1 1 ++ writeBits 2 (code.count_ - 1) ++
        (quadSort code.depth_ code.symbols_).flatMap
          (fun s => writeBits (bitLength (alphabet_size - 1)) s) ++
        (if code.count_ = 4 then
          if (quadSort code.depth_ code.symbols_).all
              (fun s => code.depth_ s == 2) then writeBits 1 0
          else writeBits 1 1
        else [])) := by
  have htake : code.symbols_.take code.count_ = code.symbols_ := by
    rw [← hlen]
    exact List.take_length code.symbols_
  refine ⟨quadSort_perm _ _, quadSort_sorted _ _, bitLength_eq_clog _ hA, ?_⟩
  unfold StoreHuffmanCode
  rw [if_neg (by omega), if_pos h4, htake]

/-- Witness for the amended C4 at a concrete 2-symbol code. -/
theorem storeHuffmanCode_simple_amended_witness :
    (1 ≤ 19 ∧
      1 ≤ (⟨2, [5, 3], fun s => ([0, 0, 0, 1, 0, 2] : List Nat).getD s 0,
        fun _ => 0⟩ : EntropyCode).count_ ∧
      (⟨2, [5, 3], fun s => ([0, 0, 0, 1, 0, 2] : List Nat).getD s 0,
        fun _ => 0⟩ : EntropyCode).count_ ≤ 4 ∧
      (⟨2, [5, 3], fun s => ([0, 0, 0, 1, 0, 2] : List Nat).getD s 0,
        fun _ => 0⟩ : EntropyCode).symbols_.length =
        (⟨2, [5, 3], fun s => ([0, 0, 0, 1, 0, 2] : List Nat).getD s 0,
          fun _ => 0⟩ : EntropyCode).count_) ∧
    (List.Perm
      (quadSort (⟨2, [5, 3], fun s => ([0, 0, 0, 1, 0, 2] : List Nat).getD s 0,
        fun _ => 0⟩ : EntropyCode).depth_
        (⟨2, [5, 3], fun s => ([0, 0, 0, 1, 0, 2] : List Nat).getD s 0,
          fun _ => 0⟩ : EntropyCode).symbols_)
      (⟨2, [5, 3], fun s => ([0, 0, 0, 1, 0, 2] : List Nat).getD s 0,
        fun _ => 0⟩ : EntropyCode).symbols_ ∧
    (quadSort (⟨2, [5, 3], fun s => ([0, 0, 0, 1, 0, 2] : List Nat).getD s 0,
        fun _ => 0⟩ : EntropyCode).depth_
        (⟨2, [5, 3], fun s => ([0, 0, 0, 1, 0, 2] : List Nat).getD s 0,
          fun _ => 0⟩ : EntropyCode).symbols_).Pairwise
      (fun a b =>
        (⟨2, [5, 3], fun s => ([0, 0, 0, 1, 0, 2] : List Nat).getD s 0,
          fun _ => 0⟩ : EntropyCode).depth_ a ≤
        (⟨2, [5, 3], fun s => ([0, 0, 0, 1, 0, 2] : List Nat).getD s 0,
          fun _ => 0⟩ : EntropyCode).depth_ b) ∧
    bitLength (19 - 1) = Nat.clog 2 19 ∧
    StoreHuffmanCode
        (⟨2, [5, 3], fun s => ([0, 0, 0, 1, 0, 2] : List Nat).getD s 0,
          fun _ => 0⟩ : EntropyCode) 19 =
      some (writeBits 1 1 ++
        writeBits 2
          ((⟨2, [5, 3], fun s => ([0, 0, 0, 1, 0, 2] : List Nat).getD s 0,
            fun _ => 0⟩ : EntropyCode).count_ - 1) ++
        (quadSort (⟨2, [5, 3],
            fun s => ([0, 0, 0, 1, 0, 2] : List Nat).getD s 0,
            fun _ => 0⟩ : EntropyCode).depth_
          (⟨2, [5, 3], fun s => ([0, 0, 0, 1, 0, 2] : List Nat).getD s 0,
            fun _ => 0⟩ : EntropyCode).symbols_).flatMap
          (fun s => writeBits (bitLength (19 - 1)) s) ++
        (if (⟨2, [5, 3], fun s => ([0, 0, 0, 1, 0, 2] : List Nat).getD s 0,
            fun _ => 0⟩ : EntropyCode).count_ = 4 then
          if (quadSort (⟨2, [5, 3],
              fun s => ([0, 0, 0, 1, 0, 2] : List Nat).getD s 0,
              fun _ => 0⟩ : EntropyCode).depth_
            (⟨2, [5, 3], fun s => ([0, 0, 0, 1, 0, 2] : List Nat).getD s 0,
              fun _ => 0⟩ : EntropyCode).symbols_).all
              (fun s =>
                (⟨2, [5, 3],
                  fun s => ([0, 0, 0, 1, 0, 2] : List Nat).getD s 0,
                  fun _ => 0⟩ : EntropyCode).depth_ s == 2) then
            writeBits 1 0
          else writeBits 1 1
        else []))) :=
  ⟨⟨by decide, by decide, by decide, by decide⟩,
    storeHuffmanCode_simple_amended _ 19 (by decide) (by decide) (by decide)
      (by decide)⟩

/-- Counterexample to claim C4 as stated: for the code with `count = 3`,
symbols `[0, 1, 2]` (in insertion order) and depths `2, 2, 1`, the source's
exchange sort emits the order `[2, 1, 0]`, while a stable ascending-depth
sort keeps `[2, 0, 1]`; the emitted symbol fields differ. -/
theorem storeHuffmanCode_stable_counterexample :
    StoreHuffmanCode
        (⟨3, [0, 1, 2], fun s => ([2, 2, 1] : List Nat).getD s 0,
          fun _ => 0⟩ : EntropyCode) 8 ≠
      some (StoreHuffmanCodeSimpleClaim
        (⟨3, [0, 1, 2], fun s => ([2, 2, 1] : List Nat).getD s 0,
          fun _ => 0⟩ : EntropyCode) 8) := by
  decide

/-- The source's `nbitpairs` equals the amended closed form. -/
theorem trimNBitPairs_eq_amended (size : Nat) :
    trimNBitPairs size = trimNBitPairsAmended size := by
  unfold trimNBitPairs trimNBitPairsAmended
  by_cases h : Nat.clog 2 (size - 1) = 0
  · simp [h]
  · simp only [h, if_false]
    omega

/-- Claim C6 (amended): the trailing trim is chosen iff
`trimmed_bit_cost + 3 + 2 * nbitpairs < untrimmed_bit_cost` with
`nbitpairs = max(1, ⌊(⌈log2(size−1)⌉ + 1) / 2⌋)`; when chosen the emitted
length field is a `1` flag, 3 bits of `nbitpairs − 1` and `2 · nbitpairs`
bits of `size − 2`; otherwise a single `0` flag bit. -/
theorem trimDecision_amended (tc hc size : Nat) :
    chooseTrim tc hc size =
      decide (tc + 3 + 2 * trimNBitPairsAmended size < hc) ∧
    storeTrimSection true size =
      writeBits 1 1 ++ writeBits 3 (trimNBitPairsAmended size - 1) ++
        writeBits (trimNBitPairsAmended size * 2) (size - 2) ∧
    storeTrimSection false size = writeBits 1 0 := by
  refine ⟨?_, ?_, ?_⟩
  · unfold chooseTrim
    rw [trimNBitPairs_eq_amended]
  · unfold storeTrimSection
    rw [trimNBitPairs_eq_amended]
    simp
  · unfold storeTrimSection
    simp

/-- Counterexample to claim C6 as stated: at `trimmed_size = 4` the source
computes `nbitpairs = 1` but the claimed formula gives 2, so with
`trimmed_bit_cost = 0` and `untrimmed_bit_cost = 6` the source chooses the
trim while the claim does not, and the emitted length field differs. -/
theorem trimDecision_claim_counterexample :
    chooseTrim 0 6 4 ≠ chooseTrimClaim 0 6 4 ∧
    storeTrimSection true 4 ≠
      writeBits 1 1 ++ writeBits 3 (trimNBitPairsClaim 4 - 1) ++
        writeBits (trimNBitPairsClaim 4 * 2) (4 - 2) := by
  have h2 : Nat.clog 2 2 = 1 := by
    rw [Nat.clog_of_two_le (by norm_num) (by norm_num)]
    norm_num [Nat.clog_one_right]
  have hclog : Nat.clog 2 3 = 2 := by
    rw [Nat.clog_of_two_le (by norm_num) (by norm_num)]
    norm_num [h2]
  constructor
  · simp only [chooseTrim, chooseTrimClaim, trimNBitPairs,
      trimNBitPairsClaim, hclog]
    decide
  · simp only [storeTrimSection, trimNBitPairs, trimNBitPairsClaim, hclog]
    decide

/-- Claim C10: for every symbol `val` and every entropy code whose
distinct-symbol count is at most 1, `EntropyEncode` emits zero bits: the bit
cursor and the storage contents are unchanged. -/
theorem entropyEncode_trivial_code_noop (val : Nat) (code : EntropyCode)
    (s : BitSink) (h : code.count_ ≤ 1) : EntropyEncode val code s = s := by
  unfold EntropyEncode
  simp [h]

/-- Witness for C10 at a concrete single-symbol code and sink. -/
theorem entropyEncode_trivial_code_noop_witness :
    (⟨1, [5], fun _ => 2, fun _ => 3⟩ : EntropyCode).count_ ≤ 1 ∧
      EntropyEncode 7 ⟨1, [5], fun _ => 2, fun _ => 3⟩ ⟨4, [true, false]⟩ =
        ⟨4, [true, false]⟩ :=
  ⟨by decide,
   entropyEncode_trivial_code_noop 7 ⟨1, [5], fun _ => 2, fun _ => 3⟩
     ⟨4, [true, false]⟩ (by decide)⟩

/-- Claim C2: for empty input, `BrotliCompressBuffer` writes exactly the two
bytes `0x01 0x00` at the start of the output buffer (the rest of the buffer is
untouched), sets the encoded size to 2 and returns 1, without constructing a
compressor or writing a stream header. -/
theorem brotliCompressBuffer_empty_input (buf : List Nat)
    (h : 2 ≤ buf.length) :
    ∃ out, BrotliCompressBuffer [] buf = some (out, 2, 1) ∧
      out.take 2 = [1, 0] ∧
      ∀ i, 2 ≤ i → out.getD i 0 = buf.getD i 0 := by
  match buf, h with
  | a :: b :: t, _ =>
    refine ⟨1 :: 0 :: t, rfl, rfl, ?_⟩
    intro i hi
    match i, hi with
    | (j + 2), _ => rfl

/-- Witness for C2 at a concrete 3-byte output buffer. -/
theorem brotliCompressBuffer_empty_input_witness :
    2 ≤ ([9, 9, 9] : List Nat).length ∧
      ∃ out, BrotliCompressBuffer [] [9, 9, 9] = some (out, 2, 1) ∧
        out.take 2 = [1, 0] ∧
        ∀ i, 2 ≤ i → out.getD i 0 = ([9, 9, 9] : List Nat).getD i 0 :=
  ⟨by decide, brotliCompressBuffer_empty_input [9, 9, 9] (by decide)⟩

end Brotli
